import Mathlib

/-!
# Verification of the gitconductor hierarchical repository model

Shallow embedding of `src/gitconductor/gitlab.py` and `src/gitconductor/misc.py`.

Filesystem paths (`pathlib.Path`) are modelled as lists of path components
(`List String`); `p / q` is list append, `p.parent` drops the last component,
`p.relative_to(root)` (for `root` a prefix) drops the root prefix.
-/

namespace Gitconductor

/-- A filesystem path as its list of components (`pathlib.Path` parts). -/
abbrev Path := List String

/-- `GROUP_FNAME = pathlib.Path(".gitconductor.pkl")` from `gitlab.py`. -/
def GROUP_FNAME : String := ".gitconductor.pkl"

/-- Embedding of `GitlabProject` (`gitlab.py`): the fields that determine paths
and dispatch behaviour.  `fullname` is the stored root-relative path, kept as
its list of components (in the Python source it is a string that `pathlib`
splits on `/`); `leaf` is the remote `project.path` attribute used as sort key
in `GitlabGroup.build`. -/
structure GProject where
  fullname : List String
  root : Path
  flat : Bool
  leaf : String
  deriving Repr, DecidableEq

/-- `GitlabProject.path` property: `self.root / self.fullname`. -/
def GProject.path (p : GProject) : Path := p.root ++ p.fullname

/-- Embedding of `GitlabGroup` (`gitlab.py`).  `fullname` is the slash-joined
remote full path, kept as its list of segments; `subgroup` is the
`subgroup: bool` field (false only on the invoked root group). -/
inductive GGroup where
  | mk (fullname : List String) (root : Path) (flat : Bool) (subgroup : Bool)
       (projects : List GProject) (subgroups : List GGroup)
  deriving Repr

def GGroup.fullname : GGroup → List String
  | .mk fn _ _ _ _ _ => fn

def GGroup.root : GGroup → Path
  | .mk _ r _ _ _ _ => r

def GGroup.flat : GGroup → Bool
  | .mk _ _ f _ _ _ => f

def GGroup.subgroup : GGroup → Bool
  | .mk _ _ _ s _ _ => s

def GGroup.projects : GGroup → List GProject
  | .mk _ _ _ _ ps _ => ps

def GGroup.subgroups : GGroup → List GGroup
  | .mk _ _ _ _ _ subs => subs

/-- `GitlabGroup.path` property:
`self.root / self.fullname.replace(os.sep, "-") if self.flat else self.root / self.fullname`.
In flat mode the slash-separated `fullname` becomes one dash-joined component. -/
def GGroup.path (g : GGroup) : Path :=
  if g.flat then g.root ++ [String.intercalate "-" g.fullname] else g.root ++ g.fullname

/-- `GitlabInstance.toplevel_dir` property: `self.root` when flat, else
`self.root / self.path.relative_to(self.root).parts[0]` (the first component
of the group's root-relative path, i.e. the first segment of `fullname`). -/
def GGroup.toplevel_dir (g : GGroup) : Path :=
  if g.flat then g.root else g.root ++ [g.fullname.headD ""]

/-- The file written by `GitlabGroup.dump`: `self.toplevel_dir / GROUP_FNAME`. -/
def GGroup.dumpPath (g : GGroup) : Path := g.toplevel_dir ++ [GROUP_FNAME]

mutual

/-- All projects of the tree in dispatch (pre-order) visitation order: the
group's own `projects` list first, then the projects of its `subgroups` in
order — exactly the order `GitlabGroup.recursive_command` visits them. -/
def GGroup.preorderProjects : GGroup → List GProject
  | .mk _ _ _ _ ps subs => ps ++ preorderProjectsList subs

def preorderProjectsList : List GGroup → List GProject
  | [] => []
  | g :: gs => g.preorderProjects ++ preorderProjectsList gs

end

mutual

/-- All group nodes in post-order (each group after all its sub-groups):
the order in which `recursive_command` reaches its trailing `self.dump()`. -/
def GGroup.postorderGroups : GGroup → List GGroup
  | .mk fn rt fl sub ps subs => postorderGroupsList subs ++ [.mk fn rt fl sub ps subs]

def postorderGroupsList : List GGroup → List GGroup
  | [] => []
  | g :: gs => g.postorderGroups ++ postorderGroupsList gs

end

mutual

/-- `fullname`s of every node of the tree (the group itself, its projects,
then recursively its sub-groups).  For a built tree these are the remote
full paths, as segment lists. -/
def GGroup.allFullnames : GGroup → List (List String)
  | .mk fn _ _ _ ps subs => fn :: ps.map GProject.fullname ++ allFullnamesList subs

def allFullnamesList : List GGroup → List (List String)
  | [] => []
  | g :: gs => g.allFullnames ++ allFullnamesList gs

end

mutual

/-- Local filesystem paths of every node of the tree (group directories and
project working trees), via the `path` properties of `gitlab.py`. -/
def GGroup.allLocalPaths : GGroup → List Path
  | .mk fn rt fl sub ps subs =>
      (GGroup.mk fn rt fl sub ps subs).path :: ps.map GProject.path ++ allLocalPathsList subs

def allLocalPathsList : List GGroup → List Path
  | [] => []
  | g :: gs => g.allLocalPaths ++ allLocalPathsList gs

end

/-! ## TreeBuilder: `GitlabGroup.build`

The remote hierarchy (what the GitLab server returns) is modelled as a tree:
each remote group carries its `full_path` (as segments), the `path` leaf
attribute of each of its projects, and its sub-groups.  `build` lists the
projects of one group (sorted by `x.path`, as in
`sorted(self.group.projects.list(all=True), key=lambda x: x.path)`), computes
each project's stored `fullname`, and recurses into the sub-groups. -/

/-- Lexicographic comparison of character lists by Unicode code point:
how Python's `sorted` compares the `str` values of `x.path`. -/
def lexLe : List Char → List Char → Bool
  | [], _ => true
  | _ :: _, [] => false
  | a :: as, b :: bs =>
      if a.toNat < b.toNat then true
      else if b.toNat < a.toNat then false
      else lexLe as bs

/-- Python's `<=` on strings (code-point lexicographic). -/
def strLe (a b : String) : Bool := lexLe a.data b.data

/-- `strLe` as a decidable relation, for `List.insertionSort`. -/
def strLeP (a b : String) : Prop := strLe a b = true

instance : DecidableRel strLeP := fun a b => inferInstanceAs (Decidable (_ = true))

/-- A remote group: `full_path` segments, remote leaf `path`s of its projects
(in remote listing order), and sub-groups. -/
inductive RGroup where
  | mk (fullPath : List String) (projects : List String) (subgroups : List RGroup)
  deriving Repr

def RGroup.fullPath : RGroup → List String
  | .mk fp _ _ => fp

def RGroup.projects : RGroup → List String
  | .mk _ ps _ => ps

def RGroup.subgroups : RGroup → List RGroup
  | .mk _ _ subs => subs

/-- The stored `fullname` of one project built under a group with remote full
path `fp`.  Source (`build`):
`fullname = self.path.parent / f"{self.path.name}-{project.path}" if self.flat else self.path / project.path`
then `fullname = str(fullname.relative_to(self.root))`.
Nested: `fp ++ [leaf]`.  Flat: the group's `path` is
`root / "-".join(fp)`, so its parent is `root` and the single new component is
`"-".join(fp) ++ "-" ++ leaf = "-".join(fp ++ [leaf])`. -/
def projectFullname (flat : Bool) (fp : List String) (leaf : String) : List String :=
  if flat then [String.intercalate "-" (fp ++ [leaf])] else fp ++ [leaf]

mutual

/-- `GitlabGroup.build` (together with `model_post_init`): construct the node
for remote group `rg`, its projects sorted by their remote `path` attribute,
and recursively its sub-group nodes (sub-groups are built with
`subgroup=True` and the same `root`/`flat`). -/
def build (root : Path) (flat : Bool) (isSub : Bool) : RGroup → GGroup
  | .mk fp projs subs =>
      .mk fp root flat isSub
        ((projs.insertionSort strLeP).map fun leaf =>
          { fullname := projectFullname flat fp leaf, root := root, flat := flat, leaf := leaf })
        (buildList root flat subs)

def buildList (root : Path) (flat : Bool) : List RGroup → List GGroup
  | [] => []
  | rg :: rgs => build root flat true rg :: buildList root flat rgs

end

mutual

/-- The remote full paths of every node of a remote hierarchy: the group's
`full_path`, `full_path ++ [leaf]` for each of its projects, recursively. -/
def RGroup.remotePaths : RGroup → List (List String)
  | .mk fp projs subs => fp :: projs.map (fun leaf => fp ++ [leaf]) ++ remotePathsList subs

def remotePathsList : List RGroup → List (List String)
  | [] => []
  | rg :: rgs => rg.remotePaths ++ remotePathsList rgs

end

/-! ## CommandDispatcher: `GitlabGroup.recursive_command`

For every project, the source does `if hasattr(project, command):
getattr(project, command)(**kwargs)` and otherwise raises
`Exception(f'Command "{command}" not recognised.')`; an exception raised by
the invoked operation (or by the `raise`) propagates and aborts the whole
call.  After the project loop it recurses into each sub-group, and finally
— unconditionally, whether or not `self.subgroup` is set — calls
`self.dump()`, which writes a pickle of `self` to
`self.toplevel_dir / GROUP_FNAME`.

The embedding threads an explicit state (the fullnames of projects whose
operation completed, and the log of dump writes as `(target path, dumped
subtree)` pairs) and an `Option DispatchErr` playing the role of a
propagating Python exception: once an error appears, nothing further runs.
Whether the operation on one project raises is abstracted by an oracle
`fails : List String → Bool` on the project's `fullname` (clone/branch/…
hit the network and the working tree; the embedding only needs *whether*
they raise). -/

/-- The command set the spec names: the git operations of `GitlabProject`. -/
def commandSet : List String :=
  ["clone", "branch", "checkout", "add", "commit", "status", "push"]

/-- The attribute names of a `GitlabProject` instance defined in
`gitlab.py` (fields and methods of `GitlabProject` and its base
`GitlabInstance`): what `hasattr(project, command)` is true for, beyond
attributes inherited from the pydantic library base class. -/
def projectAttrs : List String :=
  ["gitlab_url", "gitlab_key", "server", "root", "flat", "cfg", "toplevel_dir",
   "project", "name", "git", "rows", "fullname", "model_post_init", "path", "members",
   "clone", "branch", "checkout", "add", "commit", "status", "push"]

/-- How one `recursive_command` invocation can terminate abnormally
(a propagating Python exception). -/
inductive DispatchErr where
  /-- `Exception(f'Command "{command}" not recognised.')`: the name is not an
  attribute of the project. -/
  | unrecognised
  /-- The name is an attribute of the project but not one of the seven git
  operations: `getattr(project, command)(**kwargs)` evaluates the attribute
  and does something other than a recognised-command rejection (for a
  data attribute or property such as `members`, calling its value raises a
  `TypeError`; in no case is the "not recognised" error raised). -/
  | nonCommandAttr
  /-- The git operation on the project with the given `fullname` raised. -/
  | opFailed (fullname : List String)
  deriving Repr, DecidableEq

/-- Dispatch state: `executed` lists the fullnames of projects whose
operation completed (in visitation order), `writes` logs each `dump()` as
the target file path and the dumped (sub)tree. -/
structure DState where
  executed : List (List String)
  writes : List (Path × GGroup)

/-- The `for project in self.projects:` loop of `recursive_command`. -/
def runProjects (cmd : String) (fails : List String → Bool) :
    List GProject → DState → DState × Option DispatchErr
  | [], s => (s, none)
  | p :: ps, s =>
      if cmd ∈ projectAttrs then
        if cmd ∈ commandSet then
          if fails p.fullname then (s, some (.opFailed p.fullname))
          else runProjects cmd fails ps { s with executed := s.executed ++ [p.fullname] }
        else (s, some .nonCommandAttr)
      else (s, some .unrecognised)

/-- Python exception propagation: when the result `r` carries an error it is
returned unchanged (the exception keeps propagating, `k` never runs),
otherwise execution continues with `k` from `r`'s state. -/
def step (r : DState × Option DispatchErr) (k : DState → DState × Option DispatchErr) :
    DState × Option DispatchErr :=
  match r.2 with
  | some _ => r
  | none => k r.1

mutual

/-- `GitlabGroup.recursive_command`: project loop, then recursion into
sub-groups, then the trailing unconditional `self.dump()` (the dump runs
whether or not `self.subgroup` is set: only the rendering update is gated
on it). -/
def runGroup (cmd : String) (fails : List String → Bool) (g : GGroup) (s : DState) :
    DState × Option DispatchErr :=
  match g with
  | .mk fn rt fl sub ps subs =>
      step (runProjects cmd fails ps s) fun s1 =>
        step (runGroups cmd fails subs s1) fun s2 =>
          let g' : GGroup := .mk fn rt fl sub ps subs
          ({ s2 with writes := s2.writes ++ [(g'.dumpPath, g')] }, none)

/-- The `for subgroup in self.subgroups:` loop of `recursive_command`. -/
def runGroups (cmd : String) (fails : List String → Bool) :
    List GGroup → DState → DState × Option DispatchErr
  | [], s => (s, none)
  | g :: gs, s => step (runGroup cmd fails g s) fun s1 => runGroups cmd fails gs s1

end

/-- One top-level `recursive_command` invocation, from an empty state. -/
def dispatch (g : GGroup) (cmd : String) (fails : List String → Bool) :
    DState × Option DispatchErr :=
  runGroup cmd fails g ⟨[], []⟩

/-! ## SubtreeLocator: `misc.find_subgroup` -/

/-- The result of `find_subgroup`: a group or a project node. -/
inductive GNode where
  | grp (g : GGroup)
  | proj (p : GProject)
  deriving Repr

/-- `misc.find_subgroup`, verbatim.  `pwd` is `pathlib.Path().resolve()`, the
working directory.  The Python `for grp in group.subgroups:` loop `return`s on
its very first iteration (either `grp` itself on a path match or
`find_subgroup(grp)` otherwise), so only the first sub-group is ever examined;
the `for/else` arm `return group` runs only when `subgroups` is empty. -/
def find_subgroup (pwd : Path) : GGroup → GNode
  | .mk fn rt fl sub ps subs =>
      if (GGroup.mk fn rt fl sub ps subs).path = pwd then .grp (.mk fn rt fl sub ps subs)
      else
        match ps.find? (fun p => p.path == pwd) with
        | some p => .proj p
        | none =>
            match subs with
            | [] => .grp (.mk fn rt fl sub ps subs)
            | grp :: _ =>
                if grp.path = pwd then .grp grp else find_subgroup pwd grp

/-! ## StatePersistence: `GitlabGroup.dump` / `misc.load_cfg` / `GitlabGroup.rebuild`

`dump` pickles the whole node (the object graph rooted at it) to
`toplevel_dir / GROUP_FNAME`.  `load_cfg` unpickles and calls
`group.rebuild(cfg)`, which sets `self.root = cfg.resolve().parent.parent`,
then for every project sets `project.root = self.root` and
`project.git = git.Repo(project.path)` — `git.Repo` raises when no working
tree exists at that path — and recurses into each sub-group (each recursive
call recomputes the same root from the same `cfg`).  The net effect on paths
is: every node's `root` becomes `cfg.parent.parent`. -/

/-- `cfg.resolve().parent.parent` on a component-list path. -/
def rebaseRoot (cfg : Path) : Path := cfg.dropLast.dropLast

mutual

/-- The path mutation performed by `GitlabGroup.rebuild`: every node's `root`
(group and project alike) is set to the new root. -/
def rebase (nr : Path) : GGroup → GGroup
  | .mk fn _ fl sub ps subs =>
      .mk fn nr fl sub (ps.map fun p => { p with root := nr }) (rebaseList nr subs)

def rebaseList (nr : Path) : List GGroup → List GGroup
  | [] => []
  | g :: gs => rebase nr g :: rebaseList nr gs

end

/-- The first project (in `rebuild`'s visitation order, which is the
pre-order of the tree) whose `path` holds no VCS working tree according to
the filesystem oracle `hasRepo`; `git.Repo(project.path)` raises there. -/
def missingRepo (hasRepo : Path → Bool) (g : GGroup) : Option Path :=
  (g.preorderProjects.find? fun p => !hasRepo p.path).map GProject.path

/-- Loading failures surfaced by `load_cfg`/`rebuild`. -/
inductive LoadErr where
  /-- `git.Repo` raised (`NoSuchPathError`/`InvalidGitRepositoryError`) for
  the project at this path. -/
  | noWorkingTree (p : Path)
  deriving Repr, DecidableEq

/-- The load path of `misc.load_cfg` after unpickling, for a state file at
`cfg`: rebase every root to `cfg.parent.parent`, then reacquire each
project's `git` handle with `git.Repo(project.path)`; the first project
without a working tree aborts the load with the propagating exception. -/
def rebuildE (hasRepo : Path → Bool) (cfg : Path) (g : GGroup) : Except LoadErr GGroup :=
  let g' := rebase (rebaseRoot cfg) g
  match missingRepo hasRepo g' with
  | some p => .error (.noWorkingTree p)
  | none => .ok g'

/-! ## Well-formedness

Invariants every tree produced by `build` (and preserved by `rebase`)
enjoys, recorded as a decidable predicate: every node carries the same
`root` and `flat` flag, every group `fullname` is non-empty, and every
group `fullname` starts with the top-level group's first segment (remote
`full_path`s of sub-groups extend the root group's path). -/

mutual

def wfAux (rt : Path) (fl : Bool) (hd : String) : GGroup → Bool
  | .mk fn r f _ ps subs =>
      r == rt && f == fl && !fn.isEmpty && fn.headD "" == hd &&
      ps.all (fun p => p.root == rt && p.flat == fl) &&
      wfAuxList rt fl hd subs

def wfAuxList (rt : Path) (fl : Bool) (hd : String) : List GGroup → Bool
  | [] => true
  | g :: gs => wfAux rt fl hd g && wfAuxList rt fl hd gs

end

/-- Well-formedness of a whole tree, anchored at its own root node. -/
def GGroup.wf (g : GGroup) : Bool := wfAux g.root g.flat (g.fullname.headD "") g

/-- `n` is a node of the tree rooted at `t` (reachable through `subgroups`,
reflexively). -/
inductive IsSub : GGroup → GGroup → Prop where
  | refl (g : GGroup) : IsSub g g
  | step {n s t : GGroup} : s ∈ t.subgroups → IsSub n s → IsSub n t

/-! ## Reference (specification-side) functions -/

/-- Specification-side description of a run over a project list that stops at
the first failing operation: the fullnames of the projects executed before the
failure (all of them when none fails), and the fullname of the failing project
if any.  Used to state what `recursive_command` actually does on failure. -/
def scanProjects (fails : List String → Bool) : List GProject → List (List String) × Option (List String)
  | [] => ([], none)
  | p :: ps =>
      if fails p.fullname then ([], some p.fullname)
      else
        let r := scanProjects fails ps
        (p.fullname :: r.1, r.2)

/-- The `fullname` of the node returned by `find_subgroup`. -/
def nodeFullname : GNode → List String
  | .grp g => g.fullname
  | .proj p => p.fullname

/-- The expected dump log of one failure-free dispatch: each group node in
post-order writes a pickle of itself to its `toplevel_dir / GROUP_FNAME`. -/
def GGroup.dumpLog (g : GGroup) : List (Path × GGroup) :=
  g.postorderGroups.map fun h => (h.dumpPath, h)

/-! ## Concrete trees used as test inputs

`rgA`/`gA` is Scenario A of the spec: group `G` with projects `p1`, `p2` and
sub-group `S` with project `p3`, root `R`.  `gAflat` is its flat-mode build.
`rgB`/`gB` has two sibling sub-groups and no projects, for the subtree
locator.  `rgC` has a project `a-b` next to a sub-group `a` with project `b`,
whose flattened names collide. -/

def rgA : RGroup := .mk ["G"] ["p1", "p2"] [.mk ["G", "S"] ["p3"] []]

def gA : GGroup := build ["R"] false false rgA

def gAflat : GGroup := build ["R"] true false rgA

/-- The sub-group node `S` of `gA` (what `build` constructs for it). -/
def gAsub : GGroup := build ["R"] false true (.mk ["G", "S"] ["p3"] [])

def rgB : RGroup := .mk ["G"] [] [.mk ["G", "S1"] [] [], .mk ["G", "S2"] [] []]

def gB : GGroup := build ["R"] false false rgB

def rgC : RGroup := .mk ["G"] ["a-b"] [.mk ["G", "a"] ["b"] []]

/-- The all-succeed operation oracle: no project operation raises. -/
def noFail : List String → Bool := fun _ => false

/-! ## General lemmas about the dispatcher -/

theorem scan_append_some {fails : List String → Bool} {xs : List GProject} {q : List String}
    (h : (scanProjects fails xs).2 = some q) (ys : List GProject) :
    scanProjects fails (xs ++ ys) = ((scanProjects fails xs).1, some q) := by
  induction xs with
  | nil => simp [scanProjects] at h
  | cons p ps ih =>
      by_cases hf : fails p.fullname = true
      · simp_all [scanProjects]
      · simp_all [scanProjects]

theorem scan_append_none {fails : List String → Bool} {xs : List GProject}
    (h : (scanProjects fails xs).2 = none) (ys : List GProject) :
    scanProjects fails (xs ++ ys) =
      ((scanProjects fails xs).1 ++ (scanProjects fails ys).1, (scanProjects fails ys).2) := by
  induction xs with
  | nil => simp [scanProjects]
  | cons p ps ih =>
      by_cases hf : fails p.fullname = true
      · simp_all [scanProjects]
      · simp_all [scanProjects]

theorem sizeOf_lt_of_mem_subgroups {s g : GGroup} (h : s ∈ g.subgroups) :
    sizeOf s < sizeOf g := by
  cases g with
  | mk fn rt fl sub ps subs =>
      simp only [GGroup.subgroups] at h
      have := List.sizeOf_lt_of_mem h
      simp only [GGroup.mk.sizeOf_spec]
      omega

mutual

theorem postorder_sizeOf_le : ∀ (g : GGroup), ∀ h ∈ g.postorderGroups, sizeOf h ≤ sizeOf g
  | .mk fn rt fl sub ps subs => by
      intro h hmem
      simp only [GGroup.postorderGroups] at hmem
      rcases List.mem_append.mp hmem with hm | hm
      · obtain ⟨g', hg', hle⟩ := postorderList_sizeOf subs h hm
        have := List.sizeOf_lt_of_mem hg'
        simp only [GGroup.mk.sizeOf_spec]
        omega
      · rw [List.mem_singleton] at hm
        subst hm
        exact le_refl _

theorem postorderList_sizeOf : ∀ (gs : List GGroup), ∀ h ∈ postorderGroupsList gs,
    ∃ g ∈ gs, sizeOf h ≤ sizeOf g
  | [] => by intro h hm; simp [postorderGroupsList] at hm
  | g :: gs => by
      intro h hm
      simp only [postorderGroupsList] at hm
      rcases List.mem_append.mp hm with hm | hm
      · exact ⟨g, List.mem_cons_self _ _, postorder_sizeOf_le g h hm⟩
      · obtain ⟨g', hg', hle⟩ := postorderList_sizeOf gs h hm
        exact ⟨g', List.mem_cons_of_mem _ hg', hle⟩

end

theorem postorder_getLast (g : GGroup) : g.postorderGroups.getLast? = some g := by
  cases g with
  | mk fn rt fl sub ps subs => simp [GGroup.postorderGroups]

theorem runProjects_eq (cmd : String) (fails : List String → Bool)
    (hattr : cmd ∈ projectAttrs) (hcmd : cmd ∈ commandSet) :
    ∀ (ps : List GProject) (s : DState),
      runProjects cmd fails ps s =
        ({ s with executed := s.executed ++ (scanProjects fails ps).1 },
         (scanProjects fails ps).2.map DispatchErr.opFailed)
  | [], s => by simp [runProjects, scanProjects]
  | p :: ps, s => by
      by_cases hf : fails p.fullname = true
      · simp [runProjects, scanProjects, hattr, hcmd, hf]
      · rw [runProjects]
        simp only [hattr, if_true, hcmd, hf, if_false]
        rw [runProjects_eq cmd fails hattr hcmd ps _]
        simp [scanProjects, hf]

theorem step_none {r : DState × Option DispatchErr} (h : r.2 = none)
    (k : DState → DState × Option DispatchErr) : step r k = k r.1 := by
  simp [step, h]

theorem step_some {r : DState × Option DispatchErr} {e : DispatchErr} (h : r.2 = some e)
    (k : DState → DState × Option DispatchErr) : step r k = r := by
  simp [step, h]

mutual

theorem runGroup_exec (cmd : String) (fails : List String → Bool)
    (hattr : cmd ∈ projectAttrs) (hcmd : cmd ∈ commandSet) :
    ∀ (g : GGroup) (s : DState),
      (runGroup cmd fails g s).1.executed =
          s.executed ++ (scanProjects fails g.preorderProjects).1 ∧
      (runGroup cmd fails g s).2 =
          (scanProjects fails g.preorderProjects).2.map DispatchErr.opFailed
  | .mk fn rt fl sub ps subs, s => by
      rw [runGroup, runProjects_eq cmd fails hattr hcmd ps s]
      simp only [GGroup.preorderProjects]
      rcases hsc : (scanProjects fails ps).2 with _ | q
      · rw [scan_append_none hsc]
        rw [step_none (by simp [hsc])]
        have hrec := runGroups_exec cmd fails hattr hcmd subs
          { s with executed := s.executed ++ (scanProjects fails ps).1 }
        rcases hrs : (scanProjects fails (preorderProjectsList subs)).2 with _ | q2
        · rw [step_none (by rw [hrec.2, hrs]; rfl)]
          refine ⟨?_, rfl⟩
          simp only [DState.mk.injEq]
          rw [hrec.1]
          simp
        · rw [step_some (e := .opFailed q2) (by rw [hrec.2, hrs]; rfl)]
          refine ⟨?_, ?_⟩
          · rw [hrec.1]; simp
          · rw [hrec.2, hrs]
      · rw [scan_append_some hsc]
        rw [step_some (e := .opFailed q) (by simp [hsc])]
        simp [hsc]

theorem runGroups_exec (cmd : String) (fails : List String → Bool)
    (hattr : cmd ∈ projectAttrs) (hcmd : cmd ∈ commandSet) :
    ∀ (gs : List GGroup) (s : DState),
      (runGroups cmd fails gs s).1.executed =
          s.executed ++ (scanProjects fails (preorderProjectsList gs)).1 ∧
      (runGroups cmd fails gs s).2 =
          (scanProjects fails (preorderProjectsList gs)).2.map DispatchErr.opFailed
  | [], s => by simp [runGroups, preorderProjectsList, scanProjects]
  | g :: gs, s => by
      rw [runGroups]
      have hrecg := runGroup_exec cmd fails hattr hcmd g s
      simp only [preorderProjectsList]
      rcases hsc : (scanProjects fails g.preorderProjects).2 with _ | q
      · rw [scan_append_none hsc]
        rw [step_none (by rw [hrecg.2, hsc]; rfl)]
        have hrecs := runGroups_exec cmd fails hattr hcmd gs (runGroup cmd fails g s).1
        refine ⟨?_, hrecs.2⟩
        rw [hrecs.1, hrecg.1]
        simp
      · rw [scan_append_some hsc]
        rw [step_some (e := .opFailed q) (by rw [hrecg.2, hsc]; rfl)]
        exact ⟨hrecg.1, by rw [hrecg.2, hsc]⟩

end

mutual

theorem runGroup_writes_ok (cmd : String) (fails : List String → Bool)
    (hattr : cmd ∈ projectAttrs) (hcmd : cmd ∈ commandSet) :
    ∀ (g : GGroup) (s : DState),
      (scanProjects fails g.preorderProjects).2 = none →
      (runGroup cmd fails g s).1.writes = s.writes ++ g.dumpLog
  | .mk fn rt fl sub ps subs, s => by
      intro hok
      simp only [GGroup.preorderProjects] at hok
      have hps : (scanProjects fails ps).2 = none := by
        rcases h : (scanProjects fails ps).2 with _ | q
        · rfl
        · rw [scan_append_some h (preorderProjectsList subs)] at hok
          simp at hok
      have hsubs : (scanProjects fails (preorderProjectsList subs)).2 = none := by
        rw [scan_append_none hps (preorderProjectsList subs)] at hok
        exact hok
      rw [runGroup, runProjects_eq cmd fails hattr hcmd ps s]
      rw [step_none (by simp [hps])]
      have hrec2 := (runGroups_exec cmd fails hattr hcmd subs
        { s with executed := s.executed ++ (scanProjects fails ps).1 }).2
      rw [step_none (by rw [hrec2, hsubs]; rfl)]
      simp only
      rw [runGroups_writes_ok cmd fails hattr hcmd subs _ hsubs]
      simp [GGroup.dumpLog, GGroup.postorderGroups]

theorem runGroups_writes_ok (cmd : String) (fails : List String → Bool)
    (hattr : cmd ∈ projectAttrs) (hcmd : cmd ∈ commandSet) :
    ∀ (gs : List GGroup) (s : DState),
      (scanProjects fails (preorderProjectsList gs)).2 = none →
      (runGroups cmd fails gs s).1.writes =
        s.writes ++ (postorderGroupsList gs).map (fun h => (h.dumpPath, h))
  | [], s => by intro _; simp [runGroups, postorderGroupsList]
  | g :: gs, s => by
      intro hok
      simp only [preorderProjectsList] at hok
      have hg : (scanProjects fails g.preorderProjects).2 = none := by
        rcases h : (scanProjects fails g.preorderProjects).2 with _ | q
        · rfl
        · rw [scan_append_some h (preorderProjectsList gs)] at hok
          simp at hok
      have hgs : (scanProjects fails (preorderProjectsList gs)).2 = none := by
        rw [scan_append_none hg (preorderProjectsList gs)] at hok
        exact hok
      rw [runGroups]
      rw [step_none (by rw [(runGroup_exec cmd fails hattr hcmd g s).2, hg]; rfl)]
      rw [runGroups_writes_ok cmd fails hattr hcmd gs _ hgs]
      rw [runGroup_writes_ok cmd fails hattr hcmd g s hg]
      simp [postorderGroupsList, GGroup.dumpLog]

end

mutual

theorem runGroup_writes_err (cmd : String) (fails : List String → Bool)
    (hattr : cmd ∈ projectAttrs) (hcmd : cmd ∈ commandSet) :
    ∀ (g : GGroup) (s : DState),
      (runGroup cmd fails g s).2 ≠ none →
      ∃ W, (runGroup cmd fails g s).1.writes = s.writes ++ W ∧
        ∀ w ∈ W, sizeOf (Prod.snd w) < sizeOf g
  | .mk fn rt fl sub ps subs, s => by
      intro herr
      rw [runGroup, runProjects_eq cmd fails hattr hcmd ps s] at herr ⊢
      rcases hps : (scanProjects fails ps).2 with _ | q
      · rw [step_none (by simp [hps])] at herr ⊢
        have hrec2 := (runGroups_exec cmd fails hattr hcmd subs
          { s with executed := s.executed ++ (scanProjects fails ps).1 }).2
        rcases hsubs : (scanProjects fails (preorderProjectsList subs)).2 with _ | q2
        · rw [step_none (by rw [hrec2, hsubs]; rfl)] at herr
          simp at herr
        · rw [step_some (e := .opFailed q2) (by rw [hrec2, hsubs]; rfl)] at herr ⊢
          obtain ⟨W, hW, hsize⟩ := runGroups_writes_err cmd fails hattr hcmd subs
            { s with executed := s.executed ++ (scanProjects fails ps).1 }
            (by rw [hrec2, hsubs]; simp)
          refine ⟨W, hW, ?_⟩
          intro w hw
          obtain ⟨g', hg', hle⟩ := hsize w hw
          have := List.sizeOf_lt_of_mem hg'
          simp only [GGroup.mk.sizeOf_spec]
          omega
      · rw [step_some (e := .opFailed q) (by simp [hps])] at herr ⊢
        exact ⟨[], by simp, by simp⟩

theorem runGroups_writes_err (cmd : String) (fails : List String → Bool)
    (hattr : cmd ∈ projectAttrs) (hcmd : cmd ∈ commandSet) :
    ∀ (gs : List GGroup) (s : DState),
      (runGroups cmd fails gs s).2 ≠ none →
      ∃ W, (runGroups cmd fails gs s).1.writes = s.writes ++ W ∧
        ∀ w ∈ W, ∃ g ∈ gs, sizeOf (Prod.snd w) ≤ sizeOf g
  | [], s => by intro herr; simp [runGroups] at herr
  | g :: gs, s => by
      intro herr
      rw [runGroups] at herr ⊢
      have hrecg := (runGroup_exec cmd fails hattr hcmd g s).2
      rcases hg : (scanProjects fails g.preorderProjects).2 with _ | q
      · rw [step_none (by rw [hrecg, hg]; rfl)] at herr ⊢
        obtain ⟨W, hW, hsize⟩ := runGroups_writes_err cmd fails hattr hcmd gs
          (runGroup cmd fails g s).1 herr
        rw [runGroup_writes_ok cmd fails hattr hcmd g s hg] at hW
        refine ⟨g.dumpLog ++ W, by rw [hW]; simp, ?_⟩
        intro w hw
        rcases List.mem_append.mp hw with hw | hw
        · refine ⟨g, List.mem_cons_self _ _, ?_⟩
          simp only [GGroup.dumpLog] at hw
          obtain ⟨h', hh', rfl⟩ := List.mem_map.mp hw
          exact postorder_sizeOf_le g h' hh'
        · obtain ⟨g', hg', hle⟩ := hsize w hw
          exact ⟨g', List.mem_cons_of_mem _ hg', hle⟩
      · rw [step_some (e := .opFailed q) (by rw [hrecg, hg]; rfl)] at herr ⊢
        obtain ⟨W, hW, hsize⟩ := runGroup_writes_err cmd fails hattr hcmd g s
          (by rw [hrecg, hg]; simp)
        refine ⟨W, hW, ?_⟩
        intro w hw
        exact ⟨g, List.mem_cons_self _ _, le_of_lt (hsize w hw)⟩

end

theorem runProjects_unrec (cmd : String) (fails : List String → Bool)
    (hattr : cmd ∉ projectAttrs) :
    ∀ (ps : List GProject) (s : DState),
      runProjects cmd fails ps s =
        (s, if ps = [] then none else some DispatchErr.unrecognised)
  | [], s => by simp [runProjects]
  | p :: ps, s => by simp [runProjects, hattr]

mutual

theorem runGroup_unrec (cmd : String) (fails : List String → Bool)
    (hattr : cmd ∉ projectAttrs) :
    ∀ (g : GGroup) (s : DState),
      (runGroup cmd fails g s).1.executed = s.executed ∧
      (runGroup cmd fails g s).2 =
        (if g.preorderProjects = [] then none else some DispatchErr.unrecognised)
  | .mk fn rt fl sub [] subs, s => by
      rw [runGroup, runProjects_unrec cmd fails hattr [] s]
      rw [step_none (by simp)]
      simp only [GGroup.preorderProjects, List.nil_append]
      have hrec := runGroups_unrec cmd fails hattr subs s
      by_cases hsub : preorderProjectsList subs = []
      · rw [step_none (by rw [hrec.2]; simp [hsub])]
        refine ⟨hrec.1, ?_⟩
        simp [hsub]
      · rw [step_some (e := .unrecognised) (by rw [hrec.2]; simp [hsub])]
        refine ⟨hrec.1, ?_⟩
        rw [hrec.2]
  | .mk fn rt fl sub (p :: ps) subs, s => by
      rw [runGroup, runProjects_unrec cmd fails hattr (p :: ps) s]
      rw [step_some (e := .unrecognised) (by simp)]
      simp [GGroup.preorderProjects]

theorem runGroups_unrec (cmd : String) (fails : List String → Bool)
    (hattr : cmd ∉ projectAttrs) :
    ∀ (gs : List GGroup) (s : DState),
      (runGroups cmd fails gs s).1.executed = s.executed ∧
      (runGroups cmd fails gs s).2 =
        (if preorderProjectsList gs = [] then none else some DispatchErr.unrecognised)
  | [], s => by simp [runGroups, preorderProjectsList]
  | g :: gs, s => by
      rw [runGroups]
      have hrecg := runGroup_unrec cmd fails hattr g s
      simp only [preorderProjectsList]
      by_cases hg : g.preorderProjects = []
      · rw [step_none (by rw [hrecg.2]; simp [hg])]
        have hrecs := runGroups_unrec cmd fails hattr gs (runGroup cmd fails g s).1
        refine ⟨hrecs.1.trans hrecg.1, ?_⟩
        rw [hrecs.2]
        simp [hg]
      · rw [step_some (e := .unrecognised) (by rw [hrecg.2]; simp [hg])]
        exact ⟨hrecg.1, by rw [hrecg.2]; simp [hg]⟩

end

/-! ## The string order used by the project sort -/

theorem uint32_eq_of_toNat_eq {a b : UInt32} (h : a.toNat = b.toNat) : a = b := by
  cases a; cases b
  simp only [UInt32.toNat] at h
  congr 1
  exact BitVec.eq_of_toNat_eq h

theorem char_eq_of_toNat_eq {a b : Char} (h : a.toNat = b.toNat) : a = b :=
  Char.eq_of_val_eq (uint32_eq_of_toNat_eq h)

theorem lexLe_cons {c d : Char} {cs ds : List Char} :
    lexLe (c :: cs) (d :: ds) = true ↔
      c.toNat < d.toNat ∨ (c.toNat = d.toNat ∧ lexLe cs ds = true) := by
  simp only [lexLe]
  by_cases h1 : c.toNat < d.toNat
  · simp [h1]
  · by_cases h2 : d.toNat < c.toNat
    · rw [if_neg h1, if_pos h2]
      simp only [Bool.false_eq_true, false_iff]
      rintro (h | ⟨he, _⟩)
      · omega
      · omega
    · rw [if_neg h1, if_neg h2]
      constructor
      · intro h
        exact Or.inr ⟨by omega, h⟩
      · rintro (h | ⟨_, h⟩)
        · omega
        · exact h

theorem lexLe_total (x y : List Char) : lexLe x y = true ∨ lexLe y x = true := by
  induction x generalizing y with
  | nil => left; rfl
  | cons c cs ih =>
      cases y with
      | nil => right; rfl
      | cons d ds =>
          rw [lexLe_cons, lexLe_cons]
          rcases ih ds with h | h
          · by_cases h1 : c.toNat < d.toNat
            · left; left; exact h1
            · by_cases h2 : d.toNat < c.toNat
              · right; left; exact h2
              · left; right; exact ⟨by omega, h⟩
          · by_cases h1 : c.toNat < d.toNat
            · left; left; exact h1
            · by_cases h2 : d.toNat < c.toNat
              · right; left; exact h2
              · right; right; exact ⟨by omega, h⟩

theorem lexLe_trans {x y z : List Char} (hxy : lexLe x y = true) (hyz : lexLe y z = true) :
    lexLe x z = true := by
  induction x generalizing y z with
  | nil => rfl
  | cons c cs ih =>
      cases y with
      | nil => simp [lexLe] at hxy
      | cons d ds =>
          cases z with
          | nil => simp [lexLe] at hyz
          | cons e es =>
              rw [lexLe_cons] at hxy hyz ⊢
              rcases hxy with h | ⟨he, hxy⟩
              · rcases hyz with h' | ⟨he', _⟩
                · left; omega
                · left; omega
              · rcases hyz with h' | ⟨he', hyz⟩
                · left; omega
                · right; exact ⟨by omega, ih hxy hyz⟩

theorem lexLe_antisymm {x y : List Char} (hxy : lexLe x y = true) (hyx : lexLe y x = true) :
    x = y := by
  induction x generalizing y with
  | nil =>
      cases y with
      | nil => rfl
      | cons d ds => simp [lexLe] at hyx
  | cons c cs ih =>
      cases y with
      | nil => simp [lexLe] at hxy
      | cons d ds =>
          rw [lexLe_cons] at hxy hyx
          rcases hxy with h | ⟨he, hxy⟩
          · rcases hyx with h' | ⟨he', _⟩
            · omega
            · omega
          · rcases hyx with h' | ⟨he', hyx⟩
            · omega
            · rw [char_eq_of_toNat_eq he, ih hxy hyx]

theorem string_eq_of_data_eq {a b : String} (h : a.data = b.data) : a = b := by
  cases a; cases b
  exact congrArg String.mk h

instance : IsTotal String strLeP :=
  ⟨fun a b => lexLe_total a.data b.data⟩

instance : IsTrans String strLeP :=
  ⟨fun _ _ _ hab hbc => lexLe_trans hab hbc⟩

instance : IsAntisymm String strLeP :=
  ⟨fun _ _ hab hba => string_eq_of_data_eq (lexLe_antisymm hab hba)⟩

/-- Two `insertionSort strLeP` runs on permuted inputs agree: the sorted
output is the unique `strLeP`-sorted permutation. -/
theorem insertionSort_eq_of_perm {l₁ l₂ : List String} (h : l₁.Perm l₂) :
    l₁.insertionSort strLeP = l₂.insertionSort strLeP :=
  List.eq_of_perm_of_sorted
    ((l₁.perm_insertionSort strLeP).trans (h.trans (l₂.perm_insertionSort strLeP).symm))
    (List.sorted_insertionSort strLeP l₁) (List.sorted_insertionSort strLeP l₂)

/-! Well-formedness transfer and rebase lemmas. -/

theorem wfAuxList_mem {rt : Path} {fl : Bool} {hd : String} {gs : List GGroup}
    (h : wfAuxList rt fl hd gs = true) {s : GGroup} (hs : s ∈ gs) :
    wfAux rt fl hd s = true := by
  induction gs with
  | nil => simp at hs
  | cons g gs ih =>
      rw [wfAuxList] at h
      simp only [Bool.and_eq_true] at h
      rcases List.mem_cons.mp hs with rfl | hs
      · exact h.1
      · exact ih h.2 hs

theorem wfAux_fields {rt : Path} {fl : Bool} {hd : String} {g : GGroup}
    (h : wfAux rt fl hd g = true) :
    g.root = rt ∧ g.flat = fl ∧ g.fullname ≠ [] ∧ g.fullname.headD "" = hd ∧
      (∀ p ∈ g.projects, p.root = rt ∧ p.flat = fl) ∧
      wfAuxList rt fl hd g.subgroups = true := by
  cases g with
  | mk fn r f sub ps subs =>
      rw [wfAux] at h
      simp only [Bool.and_eq_true, beq_iff_eq, Bool.not_eq_true'] at h
      obtain ⟨⟨⟨⟨⟨h1, h2⟩, h3⟩, h4⟩, h5⟩, h6⟩ := h
      refine ⟨h1, h2, ?_, h4, ?_, h6⟩
      · simp only [GGroup.fullname]
        intro hfn
        rw [hfn] at h3
        simp at h3
      · intro p hp
        have := List.all_eq_true.mp h5 p hp
        simp only [Bool.and_eq_true, beq_iff_eq] at this
        exact this

theorem wfAux_isSub {rt : Path} {fl : Bool} {hd : String} {n t : GGroup}
    (ht : wfAux rt fl hd t = true) (h : IsSub n t) : wfAux rt fl hd n = true := by
  induction h with
  | refl => exact ht
  | step hmem h' ih =>
      apply ih
      exact wfAuxList_mem (wfAux_fields ht).2.2.2.2.2 hmem

theorem dumpPath_of_wfAux {rt : Path} {fl : Bool} {hd : String} {g : GGroup}
    (h : wfAux rt fl hd g = true) :
    g.dumpPath = (if fl then rt else rt ++ [hd]) ++ [GROUP_FNAME] := by
  obtain ⟨h1, h2, _, h4, _, _⟩ := wfAux_fields h
  rw [GGroup.dumpPath, GGroup.toplevel_dir, h1, h2, h4]

/-! Rebase and round-trip lemmas. -/

mutual

theorem rebase_id {rt : Path} {fl : Bool} {hd : String} :
    ∀ (g : GGroup), wfAux rt fl hd g = true → rebase rt g = g
  | .mk fn r f sub ps subs => by
      intro h
      obtain ⟨h1, _, _, _, h5, h6⟩ := wfAux_fields h
      simp only [GGroup.root] at h1
      subst h1
      rw [rebase]
      congr 1
      · apply List.map_congr_left ?_ |>.trans (List.map_id ps)
        intro p hp
        have := (h5 p hp).1
        cases p
        simp_all
      · exact rebaseList_id subs h6

theorem rebaseList_id {rt : Path} {fl : Bool} {hd : String} :
    ∀ (gs : List GGroup), wfAuxList rt fl hd gs = true → rebaseList rt gs = gs
  | [], _ => rfl
  | g :: gs, h => by
      rw [wfAuxList] at h
      simp only [Bool.and_eq_true] at h
      rw [rebaseList, rebase_id g h.1, rebaseList_id gs h.2]

end

/-- For a non-flat well-formed tree, the state-file path written by `dump`
rebases back to the tree's own root: `(root/<head>/<fname>).parent.parent = root`. -/
theorem rebaseRoot_dumpPath {g : GGroup} {hd : String}
    (h : wfAux g.root g.flat hd g = true) (hflat : g.flat = false) :
    rebaseRoot g.dumpPath = g.root := by
  rw [dumpPath_of_wfAux h, hflat]
  simp only [Bool.false_eq_true, if_false, rebaseRoot]
  rw [List.dropLast_concat, List.dropLast_concat]

/-! Build lemmas: fullnames versus remote paths, and nested local paths. -/

mutual

theorem allFullnames_build_perm (root : Path) (isSub : Bool) :
    ∀ (rg : RGroup),
      (build root false isSub rg).allFullnames.Perm rg.remotePaths
  | .mk fp projs subs => by
      rw [build, GGroup.allFullnames, RGroup.remotePaths]
      refine List.Perm.cons _ (List.Perm.append ?_ (allFullnamesList_build_perm root subs))
      rw [List.map_map]
      have : (GProject.fullname ∘ fun leaf =>
          ({ fullname := projectFullname false fp leaf, root := root, flat := false,
             leaf := leaf } : GProject)) = fun leaf => fp ++ [leaf] := by
        funext leaf
        simp [GProject.fullname, projectFullname]
      rw [this]
      exact (projs.perm_insertionSort strLeP).map _

theorem allFullnamesList_build_perm (root : Path) :
    ∀ (rgs : List RGroup),
      (allFullnamesList (buildList root false rgs)).Perm (remotePathsList rgs)
  | [] => by simp [buildList, allFullnamesList, remotePathsList]
  | rg :: rgs => by
      rw [buildList, allFullnamesList, remotePathsList]
      exact List.Perm.append (allFullnames_build_perm root true rg)
        (allFullnamesList_build_perm root rgs)

end

mutual

theorem allLocalPaths_build_nested (root : Path) (isSub : Bool) :
    ∀ (rg : RGroup),
      (build root false isSub rg).allLocalPaths =
        (build root false isSub rg).allFullnames.map (root ++ ·)
  | .mk fp projs subs => by
      rw [build, GGroup.allLocalPaths, GGroup.allFullnames]
      simp only [List.map_cons, List.map_append, List.map_map]
      congr 1
      exact allLocalPathsList_build_nested root subs

theorem allLocalPathsList_build_nested (root : Path) :
    ∀ (rgs : List RGroup),
      allLocalPathsList (buildList root false rgs) =
        (allFullnamesList (buildList root false rgs)).map (root ++ ·)
  | [] => by simp [buildList, allLocalPathsList, allFullnamesList]
  | rg :: rgs => by
      rw [buildList, allLocalPathsList, allFullnamesList]
      rw [List.map_append, allLocalPaths_build_nested root true rg,
        allLocalPathsList_build_nested root rgs]

end

/-- The final dump of a failure-free dispatch on `g` is `g`'s own, to
`g.dumpPath`. -/
theorem dumpLog_getLast (g : GGroup) : g.dumpLog.getLast? = some (g.dumpPath, g) := by
  cases g with
  | mk fn rt fl sub ps subs =>
      rw [GGroup.dumpLog, GGroup.postorderGroups, List.map_append]
      simp

/-! ## The claims -/

/-- C7: building Scenario A (group `G` with projects `p1`, `p2` and sub-group
`S` with project `p3`) into root `R` assigns project local paths
`R/G/p1`, `R/G/p2`, `R/G/S/p3` in nested mode and `R/G-p1`, `R/G-p2`,
`R/G-S-p3` in flat mode. -/
theorem claim_C7_scenarioA_paths :
    (build ["R"] false false rgA).preorderProjects.map GProject.path =
        [["R", "G", "p1"], ["R", "G", "p2"], ["R", "G", "S", "p3"]] ∧
    (build ["R"] true false rgA).preorderProjects.map GProject.path =
        [["R", "G-p1"], ["R", "G-p2"], ["R", "G-S-p3"]] :=
  ⟨rfl, rfl⟩

/-- C8: `build` sorts a group's projects by their remote `path` attribute
ascending, so the project sequence is the same for any two remote listing
orders of the same project set. -/
theorem claim_C8_build_sorted (root : Path) (flat isSub : Bool) (fp : List String)
    (projs projs' : List String) (subs : List RGroup) (h : projs.Perm projs') :
    build root flat isSub (.mk fp projs subs) = build root flat isSub (.mk fp projs' subs) ∧
    List.Sorted strLeP
      ((build root flat isSub (.mk fp projs subs)).projects.map GProject.leaf) := by
  constructor
  · rw [build, build, insertionSort_eq_of_perm h]
  · rw [build]
    simp only [GGroup.projects, List.map_map]
    have hid : (GProject.leaf ∘ fun leaf =>
        ({ fullname := projectFullname flat fp leaf, root := root, flat := flat,
           leaf := leaf } : GProject)) = id := rfl
    rw [hid, List.map_id]
    exact List.sorted_insertionSort strLeP projs

/-- Witness for C8 at a concrete input: the listing orders `[p2, p1]` and
`[p1, p2]` build identical trees, sorted ascending. -/
theorem claim_C8_witness :
    (build ["R"] false false (.mk ["G"] ["p2", "p1"] []) =
        build ["R"] false false (.mk ["G"] ["p1", "p2"] []) ∧
      List.Sorted strLeP
        ((build ["R"] false false (.mk ["G"] ["p2", "p1"] [])).projects.map GProject.leaf)) :=
  claim_C8_build_sorted ["R"] false false ["G"] ["p2", "p1"] ["p1", "p2"] [] (by decide)

/-- C9 counterexample: with distinct remote full paths `G`, `G/a-b`, `G/a`,
`G/a/b`, the flat build maps both projects to `R/G-a-b`: flat-mode local
paths are not pairwise distinct, refuting the claim for flat mode. -/
theorem claim_C9_counterexample :
    rgC.remotePaths.Nodup ∧ ¬ (build ["R"] true false rgC).allLocalPaths.Nodup := by
  constructor <;> decide

/-- C9 (amended to nested mode): if the remote full paths are pairwise
distinct, the nested build's local paths (groups and projects) are pairwise
distinct. -/
theorem claim_C9_nested_unique (root : Path) (isSub : Bool) (rg : RGroup)
    (h : rg.remotePaths.Nodup) :
    (build root false isSub rg).allLocalPaths.Nodup := by
  have h1 : (build root false isSub rg).allFullnames.Nodup :=
    ((allFullnames_build_perm root isSub rg).nodup_iff).mpr h
  rw [allLocalPaths_build_nested]
  exact h1.map fun a b hab => List.append_cancel_left hab

/-- Witness for C9 (amended) at Scenario A. -/
theorem claim_C9_witness :
    rgA.remotePaths.Nodup ∧ (build ["R"] false false rgA).allLocalPaths.Nodup :=
  ⟨by decide, claim_C9_nested_unique ["R"] false rgA (by decide)⟩

/-- C2 (the code defect): in tree `gB` (root group `G` with sibling sub-groups
`S1`, `S2`), locating the working directory `R/G/S2` returns the node `G/S1`
— whose path is not the working directory — because the sub-group loop
returns after its first iteration; the matching sibling `S2` is in the tree
but is never examined, and the tree root is not returned either. -/
theorem claim_C2_locator_defect :
    nodeFullname (find_subgroup ["R", "G", "S2"] gB) = ["G", "S1"] ∧
    gB.subgroups.map GGroup.path = [["R", "G", "S1"], ["R", "G", "S2"]] ∧
    (["G", "S1"] : List String) ≠ ["G", "S2"] :=
  ⟨rfl, rfl, by decide⟩

/-- C3 counterexample: in flat mode the state file sits directly in the root
(`R/.gitconductor.pkl`), so the load rebases the root to `R`'s parent and
every local path loses its `R` prefix: the round-tripped set of local paths
differs from the original. -/
theorem claim_C3_counterexample :
    (rebuildE (fun _ => true) gAflat.dumpPath gAflat).map GGroup.allLocalPaths =
        .ok [["G"], ["G-p1"], ["G-p2"], ["G-S"], ["G-S-p3"]] ∧
    (["R", "G"] : Path) ∈ gAflat.allLocalPaths ∧
    (["R", "G"] : Path) ∉
        ([["G"], ["G-p1"], ["G-p2"], ["G-S"], ["G-S-p3"]] : List Path) :=
  ⟨rfl, by decide, by decide⟩

/-- C3 (amended to nested mode): dumping a well-formed nested tree and
reloading from the dumped state file (with every working tree present)
reproduces exactly the original local paths. -/
theorem claim_C3_roundtrip_nested (g : GGroup) (hasRepo : Path → Bool) (g₂ : GGroup)
    (hwf : g.wf = true) (hflat : g.flat = false)
    (hok : rebuildE hasRepo g.dumpPath g = .ok g₂) :
    g₂.allLocalPaths = g.allLocalPaths := by
  have hwf' : wfAux g.root g.flat (g.fullname.headD "") g = true := hwf
  have hroot := rebaseRoot_dumpPath hwf' hflat
  rw [rebuildE, hroot, rebase_id g hwf'] at hok
  cases hmr : missingRepo hasRepo g with
  | some p => rw [hmr] at hok; exact absurd hok (by simp)
  | none =>
      rw [hmr] at hok
      simp only [Except.ok.injEq] at hok
      rw [← hok]

/-- Witness for C3 (amended) at Scenario A with all working trees present. -/
theorem claim_C3_witness :
    gA.wf = true ∧ gA.flat = false ∧
    rebuildE (fun _ => true) gA.dumpPath gA = .ok gA ∧
    gA.allLocalPaths = gA.allLocalPaths :=
  ⟨rfl, rfl, rfl, claim_C3_roundtrip_nested gA (fun _ => true) gA rfl rfl rfl⟩

/-- C4 counterexample: loading Scenario A when no working tree exists on disk
raises on the first project (`git.Repo(project.path)` at `R/G/p1`) instead of
succeeding: a missing working tree is a fatal load error. -/
theorem claim_C4_counterexample :
    rebuildE (fun _ => false) gA.dumpPath gA =
      .error (.noWorkingTree ["R", "G", "p1"]) :=
  rfl

/-- C4 (amended): loading succeeds precisely when every project of the
rebased tree has a VCS working tree at its local path; any project without
one makes `rebuild` raise, so the load fails. -/
theorem claim_C4_load_ok_iff (hasRepo : Path → Bool) (cfg : Path) (g : GGroup) :
    rebuildE hasRepo cfg g = .ok (rebase (rebaseRoot cfg) g) ↔
      ∀ p ∈ (rebase (rebaseRoot cfg) g).preorderProjects, hasRepo p.path = true := by
  rw [rebuildE]
  cases hmr : missingRepo hasRepo (rebase (rebaseRoot cfg) g) with
  | some p =>
      simp only [reduceCtorEq, false_iff]
      rw [missingRepo] at hmr
      rcases hfind : (rebase (rebaseRoot cfg) g).preorderProjects.find?
          (fun p => !hasRepo p.path) with _ | q
      · rw [hfind] at hmr; simp at hmr
      · intro hall
        have hq := List.find?_some hfind
        have hqmem := List.mem_of_find?_eq_some hfind
        have := hall q hqmem
        simp only [Bool.not_eq_true'] at hq
        rw [this] at hq
        simp at hq
  | none =>
      simp only [true_iff]
      rw [missingRepo] at hmr
      rcases hfind : (rebase (rebaseRoot cfg) g).preorderProjects.find?
          (fun p => !hasRepo p.path) with _ | q
      · intro p hp
        have := List.find?_eq_none.mp hfind p hp
        simp only [Bool.not_eq_true', Bool.not_eq_false] at this
        exact this
      · rw [hfind] at hmr; simp at hmr

/-- On `gA`, the clone of `G/p1` raises. -/
def failsP1 : List String → Bool := fun fn => fn == ["G", "p1"]

/-- C1 counterexample: dispatching `clone` over Scenario A with the first
project's clone failing aborts the whole invocation: the error propagates,
neither of the two remaining projects is executed, and the state file is
never written — dispatch does not continue past the failing node. -/
theorem claim_C1_counterexample :
    (dispatch gA "clone" failsP1).2 = some (.opFailed ["G", "p1"]) ∧
    (dispatch gA "clone" failsP1).1.executed = [] ∧
    (dispatch gA "clone" failsP1).1.writes.length = 0 ∧
    gA.preorderProjects.length = 3 :=
  ⟨rfl, rfl, rfl, rfl⟩

/-- C1 (amended): a failing project operation aborts the dispatch at that
node: the raised error is the first failure in traversal order, exactly the
projects before it were executed, and the dispatched group's own state-file
write never happens. -/
theorem claim_C1_failure_aborts (g : GGroup) (cmd : String) (fails : List String → Bool)
    (hattr : cmd ∈ projectAttrs) (hcmd : cmd ∈ commandSet) (q : List String)
    (hq : (scanProjects fails g.preorderProjects).2 = some q) :
    (dispatch g cmd fails).2 = some (.opFailed q) ∧
    (dispatch g cmd fails).1.executed = (scanProjects fails g.preorderProjects).1 ∧
    (g.dumpPath, g) ∉ (dispatch g cmd fails).1.writes := by
  have hex := runGroup_exec cmd fails hattr hcmd g ⟨[], []⟩
  refine ⟨?_, ?_, ?_⟩
  · rw [dispatch, hex.2, hq]; rfl
  · rw [dispatch, hex.1]; simp
  · intro hmem
    obtain ⟨W, hW, hsize⟩ := runGroup_writes_err cmd fails hattr hcmd g ⟨[], []⟩
      (by rw [hex.2, hq]; simp)
    rw [dispatch, hW] at hmem
    simp only [List.nil_append] at hmem
    have := hsize _ hmem
    simp at this

/-- Witness for C1 (amended): Scenario A, `clone`, `G/p1` failing. -/
theorem claim_C1_witness :
    ("clone" ∈ projectAttrs ∧ "clone" ∈ commandSet ∧
      (scanProjects failsP1 gA.preorderProjects).2 = some ["G", "p1"]) ∧
    ((dispatch gA "clone" failsP1).2 = some (.opFailed ["G", "p1"]) ∧
      (dispatch gA "clone" failsP1).1.executed =
        (scanProjects failsP1 gA.preorderProjects).1 ∧
      (gA.dumpPath, gA) ∉ (dispatch gA "clone" failsP1).1.writes) :=
  ⟨⟨by decide, by decide, rfl⟩,
    claim_C1_failure_aborts gA "clone" failsP1 (by decide) (by decide) ["G", "p1"] rfl⟩

/-- C5 counterexample: `"members"` is outside the command set, yet dispatching
it does not raise the fatal "command not recognised" error: `hasattr` is true
for the `members` attribute, so `getattr(project, "members")(**kwargs)` is
attempted instead (and fails differently). -/
theorem claim_C5_counterexample :
    "members" ∉ commandSet ∧
    (dispatch gA "members" noFail).2 = some DispatchErr.nonCommandAttr ∧
    DispatchErr.nonCommandAttr ≠ DispatchErr.unrecognised :=
  ⟨by decide, rfl, by decide⟩

/-- C5 (amended): dispatching a name that is not an attribute of the project
objects raises the single fatal "command not recognised" error at the first
project encountered, with zero project operations executed. -/
theorem claim_C5_unknown_name (g : GGroup) (cmd : String) (fails : List String → Bool)
    (hattr : cmd ∉ projectAttrs) (hne : g.preorderProjects ≠ []) :
    (dispatch g cmd fails).2 = some DispatchErr.unrecognised ∧
    (dispatch g cmd fails).1.executed = [] := by
  have h := runGroup_unrec cmd fails hattr g ⟨[], []⟩
  constructor
  · rw [dispatch, h.2, if_neg hne]
  · rw [dispatch, h.1]

/-- Witness for C5 (amended): dispatching `"frobnicate"` over Scenario A. -/
theorem claim_C5_witness :
    ("frobnicate" ∉ projectAttrs ∧ gA.preorderProjects ≠ []) ∧
    ((dispatch gA "frobnicate" noFail).2 = some DispatchErr.unrecognised ∧
      (dispatch gA "frobnicate" noFail).1.executed = []) :=
  ⟨⟨by decide, by decide⟩,
    claim_C5_unknown_name gA "frobnicate" noFail (by decide) (by decide)⟩

/-- C6 counterexample: a failure-free `clone` over Scenario A writes the state
file twice to the same path `R/G/.gitconductor.pkl`: first the recursive call
on sub-group `S` (dumping only `S`'s subtree), then the top-level call —
`self.dump()` is outside the `if not self.subgroup` guard, so recursive calls
write too. -/
theorem claim_C6_counterexample :
    (dispatch gA "clone" noFail).1.writes.map Prod.fst =
        [["R", "G", ".gitconductor.pkl"], ["R", "G", ".gitconductor.pkl"]] ∧
    (dispatch gA "clone" noFail).1.writes.map (fun w => GGroup.fullname w.2) =
        [["G", "S"], ["G"]] :=
  ⟨rfl, rfl⟩

/-- C6 (amended): a failure-free dispatch writes the state file once per group
node, in post-order — every recursive sub-group call writes it as well — and
the top-level call's write is last, so the final persisted content is the
whole dispatched tree. -/
theorem claim_C6_write_per_group (g : GGroup) (cmd : String) (fails : List String → Bool)
    (hattr : cmd ∈ projectAttrs) (hcmd : cmd ∈ commandSet)
    (hok : (scanProjects fails g.preorderProjects).2 = none) :
    (dispatch g cmd fails).1.writes = g.dumpLog ∧
    (dispatch g cmd fails).1.writes.length = g.postorderGroups.length ∧
    (dispatch g cmd fails).1.writes.getLast? = some (g.dumpPath, g) := by
  have hw := runGroup_writes_ok cmd fails hattr hcmd g ⟨[], []⟩ hok
  simp only [List.nil_append] at hw
  refine ⟨?_, ?_, ?_⟩
  · rw [dispatch, hw]
  · rw [dispatch, hw, GGroup.dumpLog, List.length_map]
  · rw [dispatch, hw, dumpLog_getLast]

/-- Witness for C6 (amended): failure-free `clone` over Scenario A. -/
theorem claim_C6_witness :
    ("clone" ∈ projectAttrs ∧ "clone" ∈ commandSet ∧
      (scanProjects noFail gA.preorderProjects).2 = none) ∧
    ((dispatch gA "clone" noFail).1.writes = gA.dumpLog ∧
      (dispatch gA "clone" noFail).1.writes.length = gA.postorderGroups.length ∧
      (dispatch gA "clone" noFail).1.writes.getLast? = some (gA.dumpPath, gA)) :=
  ⟨⟨by decide, by decide, rfl⟩,
    claim_C6_write_per_group gA "clone" noFail (by decide) (by decide) rfl⟩

/-- C10: dispatching over a sub-group node `n` of a well-formed tree `T` ends
with a write of exactly `n`'s subtree, and its target is the same top-level
state file that a dispatch of `T` writes: the persisted state after the run
is the serialization of the dispatched subtree only. -/
theorem claim_C10_subtree_dump (T n : GGroup) (cmd : String) (fails : List String → Bool)
    (hwf : T.wf = true) (hsub : IsSub n T)
    (hattr : cmd ∈ projectAttrs) (hcmd : cmd ∈ commandSet)
    (hok : (scanProjects fails n.preorderProjects).2 = none) :
    (dispatch n cmd fails).1.writes.getLast? = some (T.dumpPath, n) := by
  have hwfT : wfAux T.root T.flat (T.fullname.headD "") T = true := hwf
  have hwn := wfAux_isSub hwfT hsub
  have hdp : n.dumpPath = T.dumpPath := by
    rw [dumpPath_of_wfAux hwn, dumpPath_of_wfAux hwfT]
  have hw := runGroup_writes_ok cmd fails hattr hcmd n ⟨[], []⟩ hok
  rw [dispatch, hw]
  simp only [List.nil_append]
  rw [dumpLog_getLast, hdp]

/-- Witness for C10: dispatching `clone` on the loaded sub-group `S` of
Scenario A writes `S`'s subtree to `R/G/.gitconductor.pkl`. -/
theorem claim_C10_witness :
    (gA.wf = true ∧ "clone" ∈ projectAttrs ∧ "clone" ∈ commandSet ∧
      (scanProjects noFail gAsub.preorderProjects).2 = none) ∧
    (dispatch gAsub "clone" noFail).1.writes.getLast? = some (gA.dumpPath, gAsub) :=
  ⟨⟨rfl, by decide, by decide, rfl⟩,
    claim_C10_subtree_dump gA gAsub "clone" noFail rfl
      (IsSub.step (t := gA) (by rw [show gA.subgroups = [gAsub] from rfl]; exact List.mem_singleton.mpr rfl) (IsSub.refl gAsub))
      (by decide) (by decide) rfl⟩

end Gitconductor
